import Mathlib

/-!
Shallow embedding of the `rogue_view` field-of-view engine (src/main.rs).

The integer/grid layer (`Map`, `cast_ray`) is modelled computably: the
`f64` quantities appearing there (the per-step increments and the running
position of the ray) are dyadic-free exact rationals, so `ℚ` is used for
them, with `f64::round` (round half away from zero) modelled exactly by
`roundAway`.  The trigonometric layer (`distance`, `atan2`, the angle
utilities and `is_visible`) is modelled over `ℝ`, with `atan2 y x` given
by the principal argument of the complex number `x + y*I`, which matches
`f64::atan2`'s convention (range `(-π, π]`, `atan2 0 x = π` for `x < 0`).
-/

namespace RogueView

/-- Tiles of the map: a wall carrying its rendering glyph, or open air.
Mirrors `enum Tile` in src/main.rs. -/
inductive Tile where
  | Wall (c : Char)
  | Air
deriving DecidableEq, Repr

/-- `Tile::obstructing`: walls obstruct, air does not. -/
def Tile.obstructing : Tile → Bool
  | .Wall _ => true
  | .Air => false

/-- `struct Map`: row-major tile storage plus the row width. -/
structure Map where
  width : Nat
  tiles : List Tile
deriving DecidableEq, Repr

/-- `Map::at(x, y)`, the tile at `tiles[y * width + x]`.  The Rust code
indexes the vector directly and panics out of bounds; all accesses made by
the ray caster are proved in bounds, so the `Air` default of `getD` is
never observed by it. -/
def Map.tileAt (m : Map) (x y : Nat) : Tile :=
  m.tiles.getD (y * m.width + x) Tile.Air

/-- `Map::height`: `tiles.len() / width`. -/
def Map.height (m : Map) : Nat := m.tiles.length / m.width

/-- Replace the tile stored for cell `(x, y)`. -/
def Map.setTile (m : Map) (x y : Nat) (t : Tile) : Map :=
  ⟨m.width, m.tiles.set (y * m.width + x) t⟩

/-- The inner loop of `Map::from_file` for one text row: a blank column is
skipped (`' ' => continue`), any other character is written to
`tiles[i + li * width]` as a wall.  The explicit bounds test models the
panic of the vector indexing on an out-of-bounds write. -/
def writeRow (width li : Nat) : List Char → Nat → List Tile → Except String (List Tile)
  | [], _, tiles => .ok tiles
  | c :: cs, i, tiles =>
    if c = ' ' then writeRow width li cs (i + 1) tiles
    else if i + li * width < tiles.length then
      writeRow width li cs (i + 1) (tiles.set (i + li * width) (Tile.Wall c))
    else .error "index out of bounds"

/-- The outer loop of `Map::from_file` over the enumerated rows. -/
def writeRows (width : Nat) : Nat → List (List Char) → List Tile → Except String (List Tile)
  | _, [], tiles => .ok tiles
  | li, l :: ls, tiles =>
    match writeRow width li l 0 tiles with
    | .error e => .error e
    | .ok tiles' => writeRows width (li + 1) ls tiles'

/-- `Map::from_file`, applied to the list of lines read from the source.
The width is the first line's length; the grid starts as `width * h` open
tiles (`Map::new`) and is then filled row by row.  `Except.error` models
the panics of the Rust code (`expect("empty file")` and the out-of-bounds
vector write). -/
def from_lines (lines : List (List Char)) : Except String Map :=
  match lines with
  | [] => .error "empty file"
  | first :: rest =>
    let width := first.length
    match writeRows width 0 (first :: rest)
        (List.replicate (width * (first :: rest).length) Tile.Air) with
    | .error e => .error e
    | .ok tiles => .ok ⟨width, tiles⟩

/-- `Pos<u32>`: a grid cell. -/
structure Pos where
  x : Nat
  y : Nat
deriving DecidableEq, Repr

/-- The step-direction multiplier `cast_ray` computes with `diff.cmp(&0)`:
`1.0` for a negative signed difference, `0.0` for zero, `-1.0` otherwise. -/
def sgnMul (d : Int) : ℚ := if d < 0 then 1 else if d = 0 then 0 else -1

/-- The number of iterations of `cast_ray`'s marching loop: the larger of
the two absolute coordinate differences (the loop advances the major axis
by exactly one per step and exits when the rounded position reaches `b`). -/
def ray_steps (a b : Pos) : Nat :=
  max ((a.x : Int) - b.x).natAbs ((a.y : Int) - b.y).natAbs

/-- The `(xinc, yinc)` pair chosen by `cast_ray` from the match on
`ydiff.cmp(&xdiff)`. -/
def rayIncs (a b : Pos) : ℚ × ℚ :=
  let xdiff0 : Int := (a.x : Int) - b.x
  let xmul := sgnMul xdiff0
  let xdiff : Nat := xdiff0.natAbs
  let ydiff0 : Int := (a.y : Int) - b.y
  let ymul := sgnMul ydiff0
  let ydiff : Nat := ydiff0.natAbs
  if ydiff < xdiff then (1 * xmul, ((ydiff : ℚ) / (xdiff : ℚ)) * ymul)
  else if ydiff = xdiff then (1 * xmul, 1 * ymul)
  else (((xdiff : ℚ) / (ydiff : ℚ)) * xmul, 1 * ymul)

/-- `f64::round`: round half away from zero (exact on rationals; Mathlib's
`round` rounds half up, which agrees on nonnegative arguments and is
mirrored for negative ones). -/
def roundAway (q : ℚ) : Int := if q < 0 then -(round (-q)) else round q

/-- The exact running x-coordinate of `cast_ray` after `k` loop steps. -/
def rayPosX (a b : Pos) (k : Nat) : ℚ := (a.x : ℚ) + k * (rayIncs a b).1

/-- The exact running y-coordinate of `cast_ray` after `k` loop steps. -/
def rayPosY (a b : Pos) (k : Nat) : ℚ := (a.y : ℚ) + k * (rayIncs a b).2

/-- The rounded x-cell sampled by `cast_ray` at step `k`
(`xcur.round() as usize`, before `Int.toNat`). -/
def rayCellX (a b : Pos) (k : Nat) : Int := roundAway (rayPosX a b k)

/-- The rounded y-cell sampled by `cast_ray` at step `k`. -/
def rayCellY (a b : Pos) (k : Nat) : Int := roundAway (rayPosY a b k)

/-- The `while` loop of `cast_ray`, written with explicit fuel: exit with
`true` the moment the rounded position equals `b`, otherwise return
`false` on an obstructing tile, otherwise advance by `(xinc, yinc)`.
The loop is proved to exit after exactly `ray_steps` iterations, so with
fuel `ray_steps + 1` the fuel-exhausted branch is never taken. -/
def castRayAux (m : Map) (bx byy : Nat) (xinc yinc : ℚ) : Nat → ℚ → ℚ → Bool
  | 0, _, _ => true
  | fuel + 1, xcur, ycur =>
    if (roundAway xcur).toNat = bx ∧ (roundAway ycur).toNat = byy then true
    else if (m.tileAt (roundAway xcur).toNat (roundAway ycur).toNat).obstructing then false
    else castRayAux m bx byy xinc yinc fuel (xcur + xinc) (ycur + yinc)

/-- `cast_ray(a, b, map)`: march from `a`'s exact coordinates toward `b`,
reporting `true` iff no sampled tile obstructs before the rounded position
reaches `b`. -/
def cast_ray (a b : Pos) (m : Map) : Bool :=
  let incs := rayIncs a b
  castRayAux m b.x b.y incs.1 incs.2 (ray_steps a b + 1) (a.x : ℚ) (a.y : ℚ)

/-- The tile sampled by `cast_ray a b` at loop step `k`
(`map.at(xcur.round() as usize, ycur.round() as usize)`). -/
def raySample (m : Map) (a b : Pos) (k : Nat) : Tile :=
  m.tileAt (rayCellX a b k).toNat (rayCellY a b k).toNat

/-- `LightSpec`: view radius and field-of-view width. -/
structure LightSpec where
  radius : ℝ
  width : ℝ

/-- The data of the `Actor` trait that `is_visible` consumes: the rounded
tile position, the facing angle, and the optional light specification.
(The continuous `pos` of the trait is not read by the visibility code.) -/
structure Actor where
  tile_pos : Pos
  angle : ℝ
  light : Option LightSpec

/-- `distance(a, b)`: Euclidean distance between two cells, computed as in
the source from the signed integer differences. -/
noncomputable def distance (a b : Pos) : ℝ :=
  let dx : Int := (a.x : Int) - b.x
  let dy : Int := (a.y : Int) - b.y
  Real.sqrt ((dx * dx + dy * dy : Int) : ℝ)

/-- `f64::atan2(y, x)`: the principal argument of `x + y*I`. -/
noncomputable def atan2 (y x : ℝ) : ℝ := Complex.arg ⟨x, y⟩

section RealLayer

open Classical

/-- `advance_angle(a, step)`: add and wrap by `2π` when the sum exceeds it. -/
noncomputable def advance_angle (a step : ℝ) : ℝ :=
  let a := a + step
  if a > Real.pi * 2 then a - Real.pi * 2 else a

/-- `reduce_angle(a, step)`: subtract and wrap by `2π` when negative. -/
noncomputable def reduce_angle (a step : ℝ) : ℝ :=
  let a := a - step
  if a < 0 then a + Real.pi * 2 else a

/-- `is_angle_between(a, left, right)`: the field-of-view arc test, with
the seam-crossing case when `right < left`. -/
def is_angle_between (a left right : ℝ) : Prop :=
  if right < left then (a < right ∧ a ≥ 0) ∨ (a ≤ 2 * Real.pi ∧ a > left)
  else left < a ∧ right > a

/-- `is_within_fov(actor, point, light)`: bearing from observer to target
(`atan2(point.y - actor.y, actor.x - point.x) + π`) tested against the arc
from `reduce_angle(angle, width/2)` to `advance_angle(angle, width/2)`. -/
noncomputable def is_within_fov (actor : Actor) (point : Pos) (light : LightSpec) : Prop :=
  let dx : ℝ := (((actor.tile_pos.x : Int) - point.x : Int) : ℝ)
  let dy : ℝ := (((point.y : Int) - actor.tile_pos.y : Int) : ℝ)
  let atan := atan2 dy dx + Real.pi
  let left := reduce_angle actor.angle (light.width / 2)
  let right := advance_angle actor.angle (light.width / 2)
  is_angle_between atan left right

/-- `is_visible(map, actor, point)`: the guard cascade of the source, in
order: self-cell, missing light, radius, field of view, ray cast. -/
noncomputable def is_visible (m : Map) (actor : Actor) (point : Pos) : Prop :=
  if actor.tile_pos = point then True
  else
    match actor.light with
    | none => False
    | some light =>
      if distance point actor.tile_pos > light.radius then False
      else if ¬ is_within_fov actor point light then False
      else if ¬ (cast_ray actor.tile_pos point m = true) then False
      else True

/-- The visibility decision procedure exactly as the specification words
it, used to check the code against the spec: (1) self-cell short-circuit;
(2) no ViewSpec means not visible; (3) distance strictly greater than the
radius means not visible; (4) bearing `atan2(ty - oy, ox - tx) + π`
outside the arc from `normalizeReduce(facing, fov/2)` to
`normalizeAdvance(facing, fov/2)` means not visible; (5) otherwise
visible iff the ray cast is unobstructed. -/
noncomputable def is_visible_spec (m : Map) (actor : Actor) (point : Pos) : Prop :=
  if point = actor.tile_pos then True
  else
    match actor.light with
    | none => False
    | some viewSpec =>
      if distance actor.tile_pos point > viewSpec.radius then False
      else
        let bearing := atan2 (((point.y : Int) - actor.tile_pos.y : Int) : ℝ)
          (((actor.tile_pos.x : Int) - point.x : Int) : ℝ) + Real.pi
        let left := reduce_angle actor.angle (viewSpec.width / 2)
        let right := advance_angle actor.angle (viewSpec.width / 2)
        if ¬ is_angle_between bearing left right then False
        else if cast_ray actor.tile_pos point m = true then True
        else False

end RealLayer

/-- A 6 by 3 all-open map used for concrete instances. -/
def mAir : Map := ⟨6, List.replicate 18 Tile.Air⟩

/-- The 6 by 3 map with a single wall at cell `(1, 1)`. -/
def mWall11 : Map := ⟨6, (List.replicate 18 Tile.Air).set 7 (Tile.Wall '#')⟩

/-- The 6 by 3 map with a single wall at cell `(0, 0)`. -/
def mWall00 : Map := ⟨6, (List.replicate 18 Tile.Air).set 0 (Tile.Wall '#')⟩

/-- An observer at the origin facing `π` with radius `100` and a full
`2π` field of view. -/
noncomputable def actorFull : Actor := ⟨⟨0, 0⟩, Real.pi, some ⟨100, 2 * Real.pi⟩⟩

open Classical

/-! ### Basic facts about the ray increments and the sampled cells -/

lemma pos_eq_iff (a b : Pos) : a = b ↔ a.x = b.x ∧ a.y = b.y := by
  cases a; cases b; simp

lemma div_mul_sgnMul (d : Int) (s : ℕ) :
    ((d.natAbs : ℚ) / (s : ℚ)) * sgnMul d = ((-d : Int) : ℚ) / (s : ℚ) := by
  rcases lt_trichotomy d 0 with h | h | h
  · rw [sgnMul, if_pos h]
    have : ((d.natAbs : ℚ)) = ((-d : Int) : ℚ) := by
      rw [Int.cast_natAbs]
      push_cast [abs_of_neg h]
      ring
    rw [this]; ring
  · subst h; simp [sgnMul]
  · rw [sgnMul, if_neg (by omega), if_neg (by omega)]
    have : ((d.natAbs : ℚ)) = ((d : Int) : ℚ) := by
      rw [Int.cast_natAbs, abs_of_pos (by exact_mod_cast h)]
    rw [this]
    push_cast
    ring

lemma one_mul_sgnMul (d : Int) (s : ℕ) (hs : d.natAbs = s) :
    1 * sgnMul d = ((-d : Int) : ℚ) / (s : ℚ) := by
  have := div_mul_sgnMul d s
  rw [hs] at this
  rw [← this]
  rcases eq_or_ne d 0 with h | h
  · subst h; simp [sgnMul] at hs ⊢
  · have hs0 : s ≠ 0 := by
      subst hs; simpa using h
    rw [div_self (by exact_mod_cast hs0)]

lemma rayIncs_eq (a b : Pos) :
    rayIncs a b = ((((b.x : Int) - a.x : Int) : ℚ) / (ray_steps a b : ℚ),
                   (((b.y : Int) - a.y : Int) : ℚ) / (ray_steps a b : ℚ)) := by
  have hx : ((b.x : Int) - a.x : Int) = -((a.x : Int) - b.x) := by ring
  have hy : ((b.y : Int) - a.y : Int) = -((a.y : Int) - b.y) := by ring
  rw [rayIncs, ray_steps, hx, hy]
  set dx : Int := (a.x : Int) - b.x with hdx
  set dy : Int := (a.y : Int) - b.y with hdy
  rcases lt_trichotomy dy.natAbs dx.natAbs with h | h | h
  · rw [if_pos h, max_eq_left h.le]
    exact Prod.ext (one_mul_sgnMul dx _ rfl) (div_mul_sgnMul dy _)
  · rw [if_neg (by omega), if_pos h, h, max_self]
    exact Prod.ext (one_mul_sgnMul dx _ rfl) (one_mul_sgnMul dy _ h)
  · rw [if_neg (by omega), if_neg (by omega), max_eq_right h.le]
    exact Prod.ext (div_mul_sgnMul dx _) (one_mul_sgnMul dy _ rfl)

lemma rayPosX_zero (a b : Pos) : rayPosX a b 0 = (a.x : ℚ) := by simp [rayPosX]

lemma rayPosY_zero (a b : Pos) : rayPosY a b 0 = (a.y : ℚ) := by simp [rayPosY]

lemma rayPosX_succ (a b : Pos) (k : ℕ) :
    rayPosX a b (k + 1) = rayPosX a b k + (rayIncs a b).1 := by
  unfold rayPosX; push_cast; ring

lemma rayPosY_succ (a b : Pos) (k : ℕ) :
    rayPosY a b (k + 1) = rayPosY a b k + (rayIncs a b).2 := by
  unfold rayPosY; push_cast; ring

lemma ray_steps_eq_zero_iff (a b : Pos) : ray_steps a b = 0 ↔ a = b := by
  rw [ray_steps, pos_eq_iff]
  omega

lemma rayPosX_steps (a b : Pos) : rayPosX a b (ray_steps a b) = (b.x : ℚ) := by
  rcases eq_or_ne (ray_steps a b) 0 with h | h
  · have hab : a = b := (ray_steps_eq_zero_iff a b).1 h
    rw [h, rayPosX_zero, hab]
  · rw [rayPosX, rayIncs_eq]
    have hs : ((ray_steps a b : ℚ)) ≠ 0 := by exact_mod_cast h
    field_simp

lemma rayPosY_steps (a b : Pos) : rayPosY a b (ray_steps a b) = (b.y : ℚ) := by
  rcases eq_or_ne (ray_steps a b) 0 with h | h
  · have hab : a = b := (ray_steps_eq_zero_iff a b).1 h
    rw [h, rayPosY_zero, hab]
  · rw [rayPosY, rayIncs_eq]
    have hs : ((ray_steps a b : ℚ)) ≠ 0 := by exact_mod_cast h
    field_simp

/-! ### Rounding -/

lemma roundAway_intCast (n : Int) : roundAway ((n : ℚ)) = n := by
  rw [roundAway]
  split_ifs with h
  · rw [← Int.cast_neg, round_intCast]; ring
  · rw [round_intCast]

lemma roundAway_natCast (n : ℕ) : roundAway ((n : ℚ)) = n := by
  have : ((n : ℚ)) = (((n : Int)) : ℚ) := by push_cast; ring
  rw [this, roundAway_intCast]

lemma roundAway_of_nonneg (q : ℚ) (h : 0 ≤ q) : roundAway q = round q := by
  rw [roundAway, if_neg (not_lt.mpr h)]

lemma round_le_round (x y : ℚ) (h : x ≤ y) : round x ≤ round y := by
  rw [round_eq, round_eq]
  exact Int.floor_le_floor (by linarith)

lemma roundAway_bounds (A B : Int) (q : ℚ) (hA0 : 0 ≤ A)
    (h1 : (A : ℚ) ≤ q) (h2 : q ≤ (B : ℚ)) :
    A ≤ roundAway q ∧ roundAway q ≤ B := by
  have hq : 0 ≤ q := le_trans (by exact_mod_cast hA0) h1
  rw [roundAway_of_nonneg q hq]
  constructor
  · calc A = round ((A : ℚ)) := (round_intCast A).symm
      _ ≤ round q := round_le_round _ _ h1
  · calc round q ≤ round ((B : ℚ)) := round_le_round _ _ h2
      _ = B := round_intCast B

lemma convex_between (A B : ℚ) (s k : ℕ) (hk : k ≤ s) :
    min A B ≤ A + k * ((B - A) / s) ∧ A + k * ((B - A) / s) ≤ max A B := by
  rcases Nat.eq_zero_or_pos s with hs | hs
  · subst hs
    interval_cases k
    simp
  · have hs0 : (0 : ℚ) < s := by exact_mod_cast hs
    have ht0 : (0 : ℚ) ≤ (k : ℚ) / s := by positivity
    have ht1 : (k : ℚ) / s ≤ 1 := by
      rw [div_le_one hs0]; exact_mod_cast hk
    have hval : A + k * ((B - A) / s) = A + ((k : ℚ) / s) * (B - A) := by ring
    rw [hval]
    rcases le_total A B with h | h
    · rw [min_eq_left h, max_eq_right h]
      constructor <;> nlinarith
    · rw [min_eq_right h, max_eq_left h]
      constructor <;> nlinarith

lemma rayCellX_between (a b : Pos) (k : ℕ) (hk : k ≤ ray_steps a b) :
    ((min a.x b.x : ℕ) : Int) ≤ rayCellX a b k ∧ rayCellX a b k ≤ ((max a.x b.x : ℕ) : Int) := by
  rw [rayCellX, rayPosX, rayIncs_eq]
  have h := convex_between (a.x : ℚ) (b.x : ℚ) (ray_steps a b) k hk
  have hcast : ((((b.x : Int) - a.x : Int)) : ℚ) = (b.x : ℚ) - (a.x : ℚ) := by push_cast; ring
  rw [hcast]
  refine roundAway_bounds _ _ _ (by positivity) ?_ ?_
  · refine le_trans (le_of_eq ?_) h.1
    push_cast
    rfl
  · refine le_trans h.2 (le_of_eq ?_)
    push_cast
    rfl

lemma rayCellY_between (a b : Pos) (k : ℕ) (hk : k ≤ ray_steps a b) :
    ((min a.y b.y : ℕ) : Int) ≤ rayCellY a b k ∧ rayCellY a b k ≤ ((max a.y b.y : ℕ) : Int) := by
  rw [rayCellY, rayPosY, rayIncs_eq]
  have h := convex_between (a.y : ℚ) (b.y : ℚ) (ray_steps a b) k hk
  have hcast : ((((b.y : Int) - a.y : Int)) : ℚ) = (b.y : ℚ) - (a.y : ℚ) := by push_cast; ring
  rw [hcast]
  refine roundAway_bounds _ _ _ (by positivity) ?_ ?_
  · refine le_trans (le_of_eq ?_) h.1
    push_cast
    rfl
  · refine le_trans h.2 (le_of_eq ?_)
    push_cast
    rfl

lemma rayCellX_nonneg (a b : Pos) (k : ℕ) (hk : k ≤ ray_steps a b) : 0 ≤ rayCellX a b k :=
  le_trans (by positivity) (rayCellX_between a b k hk).1

lemma rayCellY_nonneg (a b : Pos) (k : ℕ) (hk : k ≤ ray_steps a b) : 0 ≤ rayCellY a b k :=
  le_trans (by positivity) (rayCellY_between a b k hk).1

/-! ### The major axis advances by exactly one cell per step -/

lemma cell_major (A B : ℕ) {s : ℕ} (hs : ((A : Int) - B).natAbs = s) (h0 : s ≠ 0) :
    ∃ e : Int, (e = 1 ∨ e = -1) ∧ (B : Int) = (A : Int) + s * e ∧
      ∀ k : ℕ, roundAway ((A : ℚ) + k * ((((B : Int) - A : Int) : ℚ) / (s : ℚ))) =
        (A : Int) + k * e := by
  have hs0 : ((s : ℚ)) ≠ 0 := by exact_mod_cast h0
  rcases Int.natAbs_eq ((A : Int) - B) with h | h
  · refine ⟨-1, Or.inr rfl, by omega, fun k => ?_⟩
    have hB : ((B : Int) - A : Int) = -(s : Int) := by omega
    rw [hB]
    have hv : (A : ℚ) + k * ((((-(s : Int)) : Int) : ℚ) / (s : ℚ)) =
        (((A : Int) + k * (-1) : Int) : ℚ) := by
      push_cast
      field_simp
    rw [hv, roundAway_intCast]
  · refine ⟨1, Or.inl rfl, by omega, fun k => ?_⟩
    have hB : ((B : Int) - A : Int) = (s : Int) := by omega
    rw [hB]
    have hv : (A : ℚ) + k * ((((s : Int)) : ℚ) / (s : ℚ)) =
        (((A : Int) + k * 1 : Int) : ℚ) := by
      push_cast
      field_simp
    rw [hv, roundAway_intCast]

lemma exists_major (a b : Pos) (h0 : ray_steps a b ≠ 0) :
    (∃ e : Int, (e = 1 ∨ e = -1) ∧ (b.x : Int) = (a.x : Int) + (ray_steps a b) * e ∧
       ∀ k, rayCellX a b k = (a.x : Int) + k * e) ∨
    (∃ e : Int, (e = 1 ∨ e = -1) ∧ (b.y : Int) = (a.y : Int) + (ray_steps a b) * e ∧
       ∀ k, rayCellY a b k = (a.y : Int) + k * e) := by
  rcases le_total (((a.y : Int) - b.y).natAbs) (((a.x : Int) - b.x).natAbs) with h | h
  · left
    have hmax : ray_steps a b = ((a.x : Int) - b.x).natAbs := max_eq_left h
    obtain ⟨e, he, hb, hcell⟩ := cell_major a.x b.x hmax.symm h0
    refine ⟨e, he, hb, fun k => ?_⟩
    rw [rayCellX, rayPosX, rayIncs_eq]
    exact hcell k
  · right
    have hmax : ray_steps a b = ((a.y : Int) - b.y).natAbs := max_eq_right h
    obtain ⟨e, he, hb, hcell⟩ := cell_major a.y b.y hmax.symm h0
    refine ⟨e, he, hb, fun k => ?_⟩
    rw [rayCellY, rayPosY, rayIncs_eq]
    exact hcell k

lemma rayCell_ne_target (a b : Pos) (k : ℕ) (hk : k < ray_steps a b) :
    ¬(rayCellX a b k = (b.x : Int) ∧ rayCellY a b k = (b.y : Int)) := by
  have h0 : ray_steps a b ≠ 0 := by omega
  rintro ⟨hx, hy⟩
  rcases exists_major a b h0 with ⟨e, he, hb, hcell⟩ | ⟨e, he, hb, hcell⟩
  · rw [hcell k, hb] at hx
    rcases he with he | he <;> subst he <;> omega
  · rw [hcell k, hb] at hy
    rcases he with he | he <;> subst he <;> omega

lemma rayCell_pair_inj (a b : Pos) (h0 : ray_steps a b ≠ 0) (j k : ℕ) (hjk : j ≠ k) :
    ¬(rayCellX a b j = rayCellX a b k ∧ rayCellY a b j = rayCellY a b k) := by
  rintro ⟨hx, hy⟩
  rcases exists_major a b h0 with ⟨e, he, _, hcell⟩ | ⟨e, he, _, hcell⟩
  · rw [hcell j, hcell k] at hx
    rcases he with he | he <;> subst he <;> omega
  · rw [hcell j, hcell k] at hy
    rcases he with he | he <;> subst he <;> omega

lemma rayCellX_steps (a b : Pos) : rayCellX a b (ray_steps a b) = (b.x : Int) := by
  rw [rayCellX, rayPosX_steps]
  exact roundAway_natCast b.x

lemma rayCellY_steps (a b : Pos) : rayCellY a b (ray_steps a b) = (b.y : Int) := by
  rw [rayCellY, rayPosY_steps]
  exact roundAway_natCast b.y

/-! ### Characterization of the marching loop -/

lemma castRayAux_iff (m : Map) (a b : Pos) :
    ∀ f j : ℕ, j + f = ray_steps a b + 1 →
      (castRayAux m b.x b.y (rayIncs a b).1 (rayIncs a b).2 f
          (rayPosX a b j) (rayPosY a b j) = true ↔
        ∀ k, j ≤ k → k < ray_steps a b → (raySample m a b k).obstructing = false) := by
  intro f
  induction f with
  | zero =>
    intro j hj
    simp only [castRayAux]
    constructor
    · intro _ k hk1 hk2
      omega
    · intro _
      trivial
  | succ f ih =>
    intro j hj
    have hjs : j ≤ ray_steps a b := by omega
    simp only [castRayAux]
    rcases eq_or_lt_of_le hjs with hj_s | hj_s
    · subst hj_s
      rw [if_pos ?hpos]
      case hpos =>
        constructor
        · show (roundAway (rayPosX a b (ray_steps a b))).toNat = b.x
          rw [show roundAway (rayPosX a b (ray_steps a b)) = rayCellX a b (ray_steps a b) from rfl,
            rayCellX_steps, Int.toNat_natCast]
        · show (roundAway (rayPosY a b (ray_steps a b))).toNat = b.y
          rw [show roundAway (rayPosY a b (ray_steps a b)) = rayCellY a b (ray_steps a b) from rfl,
            rayCellY_steps, Int.toNat_natCast]
      constructor
      · intro _ k hk1 hk2
        omega
      · intro _
        rfl
    · rw [if_neg ?hneg]
      case hneg =>
        rintro ⟨hx, hy⟩
        refine rayCell_ne_target a b j hj_s ⟨?_, ?_⟩
        · have h0 : (0 : Int) ≤ rayCellX a b j := rayCellX_nonneg a b j hjs
          rw [show roundAway (rayPosX a b j) = rayCellX a b j from rfl] at hx
          omega
        · have h0 : (0 : Int) ≤ rayCellY a b j := rayCellY_nonneg a b j hjs
          rw [show roundAway (rayPosY a b j) = rayCellY a b j from rfl] at hy
          omega
      rw [show m.tileAt (roundAway (rayPosX a b j)).toNat (roundAway (rayPosY a b j)).toNat =
          raySample m a b j from rfl]
      by_cases hob : (raySample m a b j).obstructing = true
      · rw [if_pos hob]
        constructor
        · intro hf
          exact absurd hf (by simp)
        · intro hall
          have := hall j le_rfl hj_s
          rw [hob] at this
          exact absurd this (by simp)
      · rw [if_neg hob]
        rw [← rayPosX_succ, ← rayPosY_succ]
        rw [ih (j + 1) (by omega)]
        constructor
        · intro hall k hk1 hk2
          rcases eq_or_lt_of_le hk1 with h | h
          · subst h
            simpa using hob
          · exact hall k h hk2
        · intro hall k hk1 hk2
          exact hall k (by omega) hk2

/-- `cast_ray` succeeds iff none of the `ray_steps` sampled tiles obstructs. -/
theorem cast_ray_iff (a b : Pos) (m : Map) :
    cast_ray a b m = true ↔
      ∀ k, k < ray_steps a b → (raySample m a b k).obstructing = false := by
  have h0 : cast_ray a b m =
      castRayAux m b.x b.y (rayIncs a b).1 (rayIncs a b).2 (ray_steps a b + 1)
        (rayPosX a b 0) (rayPosY a b 0) := by
    rw [rayPosX_zero, rayPosY_zero]
    rfl
  rw [h0, castRayAux_iff m a b (ray_steps a b + 1) 0 (by omega)]
  constructor
  · intro h k hk
    exact h k (Nat.zero_le k) hk
  · intro h k _ hk
    exact h k hk

lemma cast_ray_congr (a b : Pos) (m1 m2 : Map)
    (h : ∀ k, k < ray_steps a b → raySample m1 a b k = raySample m2 a b k) :
    cast_ray a b m1 = cast_ray a b m2 := by
  by_cases h1 : cast_ray a b m1 = true
  · have h2 : cast_ray a b m2 = true := by
      rw [cast_ray_iff] at h1 ⊢
      intro k hk
      rw [← h k hk]
      exact h1 k hk
    rw [h1, h2]
  · have h2 : ¬ cast_ray a b m2 = true := by
      rw [cast_ray_iff] at h1 ⊢
      intro hall
      exact h1 (fun k hk => by rw [h k hk]; exact hall k hk)
    rw [Bool.not_eq_true] at h1 h2
    rw [h1, h2]

/-! ### Map indexing -/

lemma linear_index_ne (W x x' y y' : ℕ) (hx : x < W) (hx' : x' < W)
    (h : ¬(x = x' ∧ y = y')) : y * W + x ≠ y' * W + x' := by
  intro he
  rcases lt_trichotomy y y' with hy | hy | hy
  · have h1 : y * W + x < (y + 1) * W := by
      rw [add_mul, one_mul]
      omega
    have h2 : (y + 1) * W ≤ y' * W := Nat.mul_le_mul_right W (by omega)
    omega
  · subst hy
    exact h ⟨by omega, rfl⟩
  · have h1 : y' * W + x' < (y' + 1) * W := by
      rw [add_mul, one_mul]
      omega
    have h2 : (y' + 1) * W ≤ y * W := Nat.mul_le_mul_right W (by omega)
    omega

lemma tileAt_setTile_ne (m : Map) (x y x' y' : ℕ) (t : Tile)
    (hx : x < m.width) (hx' : x' < m.width) (h : ¬(x' = x ∧ y' = y)) :
    (m.setTile x y t).tileAt x' y' = m.tileAt x' y' := by
  unfold Map.setTile Map.tileAt
  simp only [List.getD_eq_getElem?_getD]
  rw [List.getElem?_set_ne (linear_index_ne m.width x x' y y' hx hx' (by tauto))]

lemma tileAt_setTile_self (m : Map) (x y : ℕ) (t : Tile)
    (hidx : y * m.width + x < m.tiles.length) :
    (m.setTile x y t).tileAt x y = t := by
  unfold Map.setTile Map.tileAt
  simp only [List.getD_eq_getElem?_getD]
  rw [List.getElem?_set_self hidx]
  rfl

lemma tileAt_not_obstructing_of_clear (m : Map)
    (h : ∀ t ∈ m.tiles, t.obstructing = false) (x y : ℕ) :
    (m.tileAt x y).obstructing = false := by
  unfold Map.tileAt
  rw [List.getD_eq_getElem?_getD]
  rcases he : m.tiles[y * m.width + x]? with ⟨⟩ | t
  · rfl
  · exact h t (List.getElem?_mem he)

/-! ### Bounds of the sampled cells -/

lemma raySample_bounds (W Hh : ℕ) (a b : Pos)
    (hax : a.x < W) (hay : a.y < Hh) (hbx : b.x < W) (hby : b.y < Hh)
    (k : ℕ) (hk : k ≤ ray_steps a b) :
    (rayCellX a b k).toNat < W ∧ (rayCellY a b k).toNat < Hh := by
  have hx := rayCellX_between a b k hk
  have hy := rayCellY_between a b k hk
  constructor
  · have : rayCellX a b k ≤ ((max a.x b.x : ℕ) : Int) := hx.2
    omega
  · have : rayCellY a b k ≤ ((max a.y b.y : ℕ) : Int) := hy.2
    omega

/-! ### Unfolding lemmas for `is_visible` -/

lemma is_visible_self (m : Map) (actor : Actor) (point : Pos)
    (h : actor.tile_pos = point) : is_visible m actor point := by
  unfold is_visible
  rw [if_pos h]
  trivial

lemma not_visible_no_light (m : Map) (actor : Actor) (point : Pos)
    (hne : actor.tile_pos ≠ point) (hl : actor.light = none) :
    ¬ is_visible m actor point := by
  unfold is_visible
  rw [if_neg hne, hl]
  exact id

lemma visible_iff (m : Map) (actor : Actor) (point : Pos) (light : LightSpec)
    (hl : actor.light = some light) (hne : actor.tile_pos ≠ point) :
    is_visible m actor point ↔
      (¬(distance point actor.tile_pos > light.radius) ∧
        is_within_fov actor point light ∧
        cast_ray actor.tile_pos point m = true) := by
  unfold is_visible
  rw [if_neg hne, hl]
  show (if distance point actor.tile_pos > light.radius then False
      else if ¬ is_within_fov actor point light then False
      else if ¬ cast_ray actor.tile_pos point m = true then False else True) ↔ _
  constructor
  · intro hv
    by_cases hd : distance point actor.tile_pos > light.radius
    · rw [if_pos hd] at hv
      exact hv.elim
    rw [if_neg hd] at hv
    by_cases hf : is_within_fov actor point light
    · rw [if_neg (not_not_intro hf)] at hv
      by_cases hc : cast_ray actor.tile_pos point m = true
      · exact ⟨hd, hf, hc⟩
      · rw [if_pos hc] at hv
        exact hv.elim
    · rw [if_pos hf] at hv
      exact hv.elim
  · rintro ⟨hd, hf, hc⟩
    rw [if_neg hd, if_neg (not_not_intro hf), if_neg (not_not_intro hc)]
    trivial

lemma not_visible_of_blocked (m : Map) (actor : Actor) (point : Pos)
    (hne : actor.tile_pos ≠ point)
    (hb : cast_ray actor.tile_pos point m = false) :
    ¬ is_visible m actor point := by
  intro hv
  cases hl : actor.light with
  | none => exact not_visible_no_light m actor point hne hl hv
  | some light =>
    have := ((visible_iff m actor point light hl hne).1 hv).2.2
    rw [hb] at this
    exact absurd this (by simp)

lemma cast_ray_no_walls (m : Map) (h : ∀ t ∈ m.tiles, t.obstructing = false)
    (a b : Pos) : cast_ray a b m = true := by
  rw [cast_ray_iff]
  intro k _
  exact tileAt_not_obstructing_of_clear m h _ _

/-! ### Claim C5 -/

/-- Claim C5: on a grid with no opaque tiles, `cast_ray(A, B)` and
`cast_ray(B, A)` both terminate and both return `true` for every pair of
cells (termination is inherent in the model: the loop provably exits
after `ray_steps` iterations, which the fuel covers). -/
theorem cast_ray_empty_symm (m : Map) (h : ∀ t ∈ m.tiles, t.obstructing = false)
    (a b : Pos) : cast_ray a b m = true ∧ cast_ray b a m = true :=
  ⟨cast_ray_no_walls m h a b, cast_ray_no_walls m h b a⟩

/-- Witness for C5 at a concrete empty grid and cell pair. -/
theorem cast_ray_empty_symm_witness :
    cast_ray ⟨0, 0⟩ ⟨5, 2⟩ mAir = true ∧ cast_ray ⟨5, 2⟩ ⟨0, 0⟩ mAir = true :=
  cast_ray_empty_symm mAir (by decide) ⟨0, 0⟩ ⟨5, 2⟩

/-! ### Claim C8 -/

/-- Claim C8: for in-bounds endpoints every rounded position the ray cast
can sample lies inside the grid, and the row-major index used by the tile
lookup stays below `W * H`. -/
theorem ray_cells_in_bounds (W Hh : ℕ) (a b : Pos)
    (hax : a.x < W) (hay : a.y < Hh) (hbx : b.x < W) (hby : b.y < Hh)
    (k : ℕ) (hk : k ≤ ray_steps a b) :
    (rayCellX a b k).toNat < W ∧ (rayCellY a b k).toNat < Hh ∧
      (rayCellY a b k).toNat * W + (rayCellX a b k).toNat < W * Hh := by
  obtain ⟨h1, h2⟩ := raySample_bounds W Hh a b hax hay hbx hby k hk
  refine ⟨h1, h2, ?_⟩
  calc (rayCellY a b k).toNat * W + (rayCellX a b k).toNat
      < (rayCellY a b k).toNat * W + W := by omega
    _ = ((rayCellY a b k).toNat + 1) * W := by ring
    _ ≤ Hh * W := Nat.mul_le_mul_right W (by omega)
    _ = W * Hh := Nat.mul_comm _ _

/-- Witness for C8 at a concrete grid size, cell pair and step. -/
theorem ray_cells_in_bounds_witness :
    (rayCellX ⟨0, 0⟩ ⟨5, 2⟩ 3).toNat < 6 ∧ (rayCellY ⟨0, 0⟩ ⟨5, 2⟩ 3).toNat < 3 ∧
      (rayCellY ⟨0, 0⟩ ⟨5, 2⟩ 3).toNat * 6 + (rayCellX ⟨0, 0⟩ ⟨5, 2⟩ 3).toNat < 6 * 3 :=
  ray_cells_in_bounds 6 3 ⟨0, 0⟩ ⟨5, 2⟩ (by decide) (by decide) (by decide) (by decide)
    3 (by decide)

/-! ### Claim C9 -/

lemma raySample_toNat_ne_target (a b : Pos) (k : ℕ) (hk : k < ray_steps a b) :
    ¬((rayCellX a b k).toNat = b.x ∧ (rayCellY a b k).toNat = b.y) := by
  rintro ⟨hx, hy⟩
  have h0x : (0 : Int) ≤ rayCellX a b k := rayCellX_nonneg a b k hk.le
  have h0y : (0 : Int) ≤ rayCellY a b k := rayCellY_nonneg a b k hk.le
  exact rayCell_ne_target a b k hk ⟨by omega, by omega⟩

/-- Claim C9: the target cell's own tile never affects the ray cast — the
result over `m` equals the result over `m` with the tile at `b` replaced by
any tile; consequently the full visibility verdict for the target is also
unchanged by the replacement (walls at the edge of sight are seen). -/
theorem cast_ray_ignores_target (m : Map) (a b : Pos) (t : Tile)
    (hax : a.x < m.width) (hay : a.y < m.height)
    (hbx : b.x < m.width) (hby : b.y < m.height) (hne : a ≠ b) :
    cast_ray a b (m.setTile b.x b.y t) = cast_ray a b m ∧
      ∀ ang : ℝ, ∀ light : Option LightSpec,
        (is_visible (m.setTile b.x b.y t) ⟨a, ang, light⟩ b ↔
          is_visible m ⟨a, ang, light⟩ b) := by
  have hray : cast_ray a b (m.setTile b.x b.y t) = cast_ray a b m := by
    apply cast_ray_congr
    intro k hk
    unfold raySample
    apply tileAt_setTile_ne
    · exact hbx
    · exact (raySample_bounds m.width m.height a b hax hay hbx hby k hk.le).1
    · exact raySample_toNat_ne_target a b k hk
  refine ⟨hray, fun ang light => ?_⟩
  have hne' : (⟨a, ang, light⟩ : Actor).tile_pos ≠ b := hne
  cases light with
  | none =>
    constructor
    · intro hv
      exact absurd hv (not_visible_no_light _ _ _ hne' rfl)
    · intro hv
      exact absurd hv (not_visible_no_light _ _ _ hne' rfl)
  | some l =>
    rw [visible_iff _ _ _ l rfl hne', visible_iff _ _ _ l rfl hne']
    rw [show (⟨a, ang, some l⟩ : Actor).tile_pos = a from rfl, hray]

/-- Witness for C9 at a concrete map, tile and cell pair. -/
theorem cast_ray_ignores_target_witness :
    cast_ray ⟨0, 0⟩ ⟨5, 2⟩ (mAir.setTile 5 2 (Tile.Wall 'X')) = cast_ray ⟨0, 0⟩ ⟨5, 2⟩ mAir ∧
      (is_visible (mAir.setTile 5 2 (Tile.Wall 'X')) ⟨⟨0, 0⟩, 0, none⟩ ⟨5, 2⟩ ↔
        is_visible mAir ⟨⟨0, 0⟩, 0, none⟩ ⟨5, 2⟩) := by
  have h := cast_ray_ignores_target mAir ⟨0, 0⟩ ⟨5, 2⟩ (Tile.Wall 'X')
    (by decide) (by decide) (by decide) (by decide) (by decide)
  exact ⟨h.1, h.2 0 none⟩

/-! ### Claim C10 -/

lemma cast_ray_origin_blocked (m : Map) (a b : Pos) (hne : a ≠ b)
    (hobs : (m.tileAt a.x a.y).obstructing = true) : cast_ray a b m = false := by
  have hs : ray_steps a b ≠ 0 := fun h => hne ((ray_steps_eq_zero_iff a b).1 h)
  rw [← Bool.not_eq_true, cast_ray_iff]
  intro hall
  have h0 := hall 0 (by omega)
  have hx : rayCellX a b 0 = (a.x : Int) := by
    rw [rayCellX, rayPosX_zero]
    exact roundAway_natCast a.x
  have hy : rayCellY a b 0 = (a.y : Int) := by
    rw [rayCellY, rayPosY_zero]
    exact roundAway_natCast a.y
  unfold raySample at h0
  rw [hx, hy, Int.toNat_natCast, Int.toNat_natCast, hobs] at h0
  exact absurd h0 (by simp)

/-- Claim C10: the origin cell is tested first — if the tile at `a` is
opaque then `cast_ray(a, b)` is blocked for every `b ≠ a`, and an observer
standing on an opaque cell sees nothing but its own cell, whatever its
light parameters. -/
theorem origin_tested_first (m : Map) (a b : Pos) (hab : a ≠ b)
    (hobs : (m.tileAt a.x a.y).obstructing = true) :
    cast_ray a b m = false ∧
      ∀ actor : Actor, actor.tile_pos = a → ∀ p : Pos, p ≠ a → ¬ is_visible m actor p := by
  constructor
  · exact cast_ray_origin_blocked m a b hab hobs
  · intro actor htp p hp
    apply not_visible_of_blocked
    · rw [htp]
      exact fun h => hp h.symm
    · rw [htp]
      exact cast_ray_origin_blocked m a p (fun h => hp h.symm) hobs

/-- Witness for C10 at a concrete map with an opaque origin. -/
theorem origin_tested_first_witness :
    cast_ray ⟨0, 0⟩ ⟨1, 1⟩ mWall00 = false ∧
      ¬ is_visible mWall00 ⟨⟨0, 0⟩, 0, none⟩ ⟨1, 1⟩ :=
  ⟨(origin_tested_first mWall00 ⟨0, 0⟩ ⟨1, 1⟩ (by decide) (by decide)).1,
    (origin_tested_first mWall00 ⟨0, 0⟩ ⟨1, 1⟩ (by decide) (by decide)).2
      ⟨⟨0, 0⟩, 0, none⟩ rfl ⟨1, 1⟩ (by decide)⟩

/-! ### Distance and field-of-view helpers for concrete instances -/

lemma distance_eq (a b : Pos) :
    distance a b = Real.sqrt (((((a.x : Int) - b.x) * ((a.x : Int) - b.x) +
      ((a.y : Int) - b.y) * ((a.y : Int) - b.y) : Int)) : ℝ) := rfl

lemma distance_comm (a b : Pos) : distance a b = distance b a := by
  rw [distance_eq, distance_eq]
  congr 1
  push_cast
  ring

lemma distance_le_100 (p q : Pos)
    (h : ((p.x : Int) - q.x) * ((p.x : Int) - q.x) +
      ((p.y : Int) - q.y) * ((p.y : Int) - q.y) ≤ (10000 : Int)) :
    ¬ (distance p q > 100) := by
  rw [not_lt, distance_eq]
  have hc : (((((p.x : Int) - q.x) * ((p.x : Int) - q.x) +
      ((p.y : Int) - q.y) * ((p.y : Int) - q.y) : Int)) : ℝ) ≤ 10000 := by
    exact_mod_cast h
  calc Real.sqrt _ ≤ Real.sqrt 10000 := Real.sqrt_le_sqrt hc
    _ = 100 := by
      rw [show (10000 : ℝ) = 100 ^ 2 by norm_num, Real.sqrt_sq (by norm_num)]

lemma is_within_fov_eq (actor : Actor) (point : Pos) (light : LightSpec) :
    is_within_fov actor point light =
      is_angle_between
        (atan2 ((((point.y : Int) - actor.tile_pos.y : Int)) : ℝ)
          ((((actor.tile_pos.x : Int) - point.x : Int)) : ℝ) + Real.pi)
        (reduce_angle actor.angle (light.width / 2))
        (advance_angle actor.angle (light.width / 2)) := rfl

lemma advance_angle_eq (a step : ℝ) :
    advance_angle a step =
      if a + step > Real.pi * 2 then a + step - Real.pi * 2 else a + step := rfl

lemma reduce_angle_eq (a step : ℝ) :
    reduce_angle a step =
      if a - step < 0 then a - step + Real.pi * 2 else a - step := rfl

lemma reduce_angle_pi_pi : reduce_angle Real.pi ((2 * Real.pi) / 2) = 0 := by
  unfold reduce_angle
  have h : Real.pi - (2 * Real.pi) / 2 = 0 := by ring
  rw [h, if_neg (lt_irrefl 0)]

lemma advance_angle_pi_pi : advance_angle Real.pi ((2 * Real.pi) / 2) = 2 * Real.pi := by
  unfold advance_angle
  have hπ := Real.pi_pos
  rw [if_neg (not_lt.mpr (by linarith))]
  ring

lemma fov_full (tp p : Pos) (r : ℝ) (hdy : (p.y : Int) ≠ (tp.y : Int)) :
    is_within_fov ⟨tp, Real.pi, some ⟨r, 2 * Real.pi⟩⟩ p ⟨r, 2 * Real.pi⟩ := by
  have hπ := Real.pi_pos
  rw [is_within_fov_eq]
  show is_angle_between
    (atan2 ((((p.y : Int) - tp.y : Int)) : ℝ) ((((tp.x : Int) - p.x : Int)) : ℝ) + Real.pi)
    (reduce_angle Real.pi ((2 * Real.pi) / 2)) (advance_angle Real.pi ((2 * Real.pi) / 2))
  rw [reduce_angle_pi_pi, advance_angle_pi_pi]
  set dy : ℝ := ((((p.y : Int) - tp.y : Int)) : ℝ) with hdy_def
  set dx : ℝ := ((((tp.x : Int) - p.x : Int)) : ℝ) with hdx_def
  have harg1 : -Real.pi < Complex.arg ⟨dx, dy⟩ := Complex.neg_pi_lt_arg _
  have harg2 : Complex.arg ⟨dx, dy⟩ ≤ Real.pi := Complex.arg_le_pi _
  have him : (⟨dx, dy⟩ : Complex).im = dy := rfl
  have hdy0 : dy ≠ 0 := by
    rw [hdy_def]
    exact_mod_cast sub_ne_zero.mpr hdy
  have harg3 : Complex.arg ⟨dx, dy⟩ ≠ Real.pi := by
    intro h
    have := (Complex.arg_eq_pi_iff.mp h).2
    rw [him] at this
    exact hdy0 this
  unfold is_angle_between
  rw [if_neg (not_lt.mpr (by linarith : (0 : ℝ) ≤ 2 * Real.pi))]
  unfold atan2
  constructor
  · linarith
  · have : Complex.arg ⟨dx, dy⟩ < Real.pi := lt_of_le_of_ne harg2 harg3
    linarith

lemma visible_concrete (m : Map) (tp p : Pos) (hne : tp ≠ p)
    (hdy : (p.y : Int) ≠ (tp.y : Int))
    (hdist : ((p.x : Int) - tp.x) * ((p.x : Int) - tp.x) +
      ((p.y : Int) - tp.y) * ((p.y : Int) - tp.y) ≤ (10000 : Int))
    (hcast : cast_ray tp p m = true) :
    is_visible m ⟨tp, Real.pi, some ⟨100, 2 * Real.pi⟩⟩ p := by
  refine (visible_iff m _ p ⟨100, 2 * Real.pi⟩ rfl hne).2 ⟨?_, ?_, hcast⟩
  · exact distance_le_100 p tp hdist
  · exact fov_full tp p 100 hdy

/-! ### Claim C6 -/

/-- Claim C6: visibility is monotone non-decreasing in the radius — if a
cell is visible for radius `r1` it stays visible for any radius `r2 ≥ r1`,
all other observer parameters fixed. -/
theorem is_visible_radius_mono (m : Map) (tp : Pos) (ang w r1 r2 : ℝ) (p : Pos)
    (hr : r1 ≤ r2) (h : is_visible m ⟨tp, ang, some ⟨r1, w⟩⟩ p) :
    is_visible m ⟨tp, ang, some ⟨r2, w⟩⟩ p := by
  by_cases hne : tp = p
  · exact is_visible_self _ _ _ hne
  · have h1 := (visible_iff m ⟨tp, ang, some ⟨r1, w⟩⟩ p ⟨r1, w⟩ rfl hne).1 h
    refine (visible_iff m ⟨tp, ang, some ⟨r2, w⟩⟩ p ⟨r2, w⟩ rfl hne).2 ⟨?_, ?_, ?_⟩
    · have hd : distance p tp ≤ r1 := not_lt.mp h1.1
      exact not_lt.mpr (le_trans hd hr)
    · exact h1.2.1
    · exact h1.2.2

/-- Witness for C6 at a concrete map and radii `100 ≤ 200`. -/
theorem is_visible_radius_mono_witness :
    is_visible mAir ⟨⟨0, 0⟩, Real.pi, some ⟨200, 2 * Real.pi⟩⟩ ⟨1, 1⟩ := by
  apply is_visible_radius_mono mAir ⟨0, 0⟩ Real.pi (2 * Real.pi) 100 200 ⟨1, 1⟩ (by norm_num)
  exact visible_concrete mAir ⟨0, 0⟩ ⟨1, 1⟩ (by decide) (by decide) (by decide)
    (cast_ray_no_walls mAir (by decide) ⟨0, 0⟩ ⟨1, 1⟩)

/-! ### Claim C1 -/

/-- Claim C1: `is_visible` decides visibility by exactly the five steps of
the specification, in order: self-cell short-circuit, missing light,
radius bound, field-of-view arc, ray cast.  Stated as the pointwise
equivalence of the code's guard cascade with the specification's
decision procedure `is_visible_spec`. -/
theorem is_visible_matches_spec (m : Map) (actor : Actor) (point : Pos) :
    is_visible m actor point ↔ is_visible_spec m actor point := by
  unfold is_visible is_visible_spec
  by_cases h1 : actor.tile_pos = point
  · rw [if_pos h1, if_pos h1.symm]
  · rw [if_neg h1, if_neg (show ¬(point = actor.tile_pos) from fun h => h1 h.symm)]
    cases hl : actor.light with
    | none => exact Iff.rfl
    | some l =>
      show (if distance point actor.tile_pos > l.radius then False
          else if ¬ is_within_fov actor point l then False
          else if ¬ cast_ray actor.tile_pos point m = true then False else True) ↔
        (if distance actor.tile_pos point > l.radius then False
          else if ¬ is_angle_between
              (atan2 ((((point.y : Int) - actor.tile_pos.y : Int)) : ℝ)
                ((((actor.tile_pos.x : Int) - point.x : Int)) : ℝ) + Real.pi)
              (reduce_angle actor.angle (l.width / 2))
              (advance_angle actor.angle (l.width / 2)) then False
          else if cast_ray actor.tile_pos point m = true then True else False)
      rw [distance_comm point actor.tile_pos, ← is_within_fov_eq]
      split_ifs <;> tauto

/-! ### Claim C2 -/

/-- Claim C2: the arc test `is_angle_between` satisfies, on normalized
inputs, the stated characterization: strict interior membership when
`left ≤ right`, and the seam-crossing disjunction when `right < left`
(so boundary angles are excluded, `is_angle_between 45° 45° 90°` is
false, and `is_angle_between 0° 315° 45°` is true). -/
theorem is_angle_between_charact (a l r : ℝ)
    (ha0 : 0 ≤ a) (ha1 : a < 2 * Real.pi) (hl0 : 0 ≤ l) (hl1 : l < 2 * Real.pi)
    (hr0 : 0 ≤ r) (hr1 : r < 2 * Real.pi) :
    (l ≤ r → (is_angle_between a l r ↔ l < a ∧ a < r)) ∧
    (r < l → (is_angle_between a l r ↔ (a < r ∧ 0 ≤ a) ∨ (a > l ∧ a ≤ 2 * Real.pi))) := by
  constructor
  · intro hlr
    unfold is_angle_between
    rw [if_neg (not_lt.mpr hlr)]
  · intro hrl
    unfold is_angle_between
    rw [if_pos hrl]
    constructor
    · rintro (⟨h1, h2⟩ | ⟨h1, h2⟩)
      · exact Or.inl ⟨h1, h2⟩
      · exact Or.inr ⟨h2, h1⟩
    · rintro (⟨h1, h2⟩ | ⟨h1, h2⟩)
      · exact Or.inl ⟨h1, h2⟩
      · exact Or.inr ⟨h2, h1⟩

/-- Witness for C2: the seam-crossing instance `0° ∈ (315°, 45°)`. -/
theorem is_angle_between_charact_witness :
    is_angle_between 0 (7 * Real.pi / 4) (Real.pi / 4) := by
  have hπ := Real.pi_pos
  exact ((is_angle_between_charact 0 (7 * Real.pi / 4) (Real.pi / 4)
      le_rfl (by linarith) (by linarith) (by linarith) (by linarith) (by linarith)).2
    (by linarith)).mpr (Or.inl ⟨by linarith, le_rfl⟩)

/-! ### Claim C7 -/

/-- Counterexample to C7 as stated: at `a = π`, `step = π` (both within
the claimed input ranges) `advance_angle` returns exactly `2π`, which is
not in `[0, 2π)`. -/
theorem advance_angle_two_pi_cex :
    (0 ≤ Real.pi ∧ Real.pi < 2 * Real.pi ∧ 0 ≤ Real.pi ∧ Real.pi ≤ 2 * Real.pi) ∧
      ¬ (advance_angle Real.pi Real.pi < 2 * Real.pi) := by
  have hπ := Real.pi_pos
  refine ⟨⟨hπ.le, by linarith, hπ.le, by linarith⟩, ?_⟩
  unfold advance_angle
  rw [if_neg (not_lt.mpr (by linarith : Real.pi + Real.pi ≤ Real.pi * 2))]
  exact not_lt.mpr (by linarith)

/-- Claim C7, amended: on the claimed input ranges `reduce_angle` lands in
`[0, 2π)`, while `advance_angle` lands in `[0, 2π]` — it returns exactly
`2π` when `a + step = 2π`, the boundary case the original claim excluded. -/
theorem angle_normalization_range (a step : ℝ)
    (h1 : 0 ≤ a) (h2 : a < 2 * Real.pi) (h3 : 0 ≤ step) (h4 : step ≤ 2 * Real.pi) :
    (0 ≤ advance_angle a step ∧ advance_angle a step ≤ 2 * Real.pi) ∧
      (0 ≤ reduce_angle a step ∧ reduce_angle a step < 2 * Real.pi) := by
  have hπ := Real.pi_pos
  rw [advance_angle_eq, reduce_angle_eq]
  constructor
  · split_ifs with h <;> constructor <;> linarith
  · split_ifs with h <;> constructor <;> linarith

/-- Witness for the amended C7 at `a = 0`, `step = 0`. -/
theorem angle_normalization_range_witness :
    (0 ≤ advance_angle 0 0 ∧ advance_angle 0 0 ≤ 2 * Real.pi) ∧
      (0 ≤ reduce_angle 0 0 ∧ reduce_angle 0 0 < 2 * Real.pi) :=
  angle_normalization_range 0 0 le_rfl Real.two_pi_pos le_rfl Real.two_pi_pos.le

/-! ### Claim C4 -/

lemma linear_index_lt (W Hh x y : ℕ) (hx : x < W) (hy : y < Hh) :
    y * W + x < W * Hh := by
  calc y * W + x < y * W + W := by omega
    _ = (y + 1) * W := by ring
    _ ≤ Hh * W := Nat.mul_le_mul_right W (by omega)
    _ = W * Hh := Nat.mul_comm _ _

/-- A cell sampled by the sub-ray from `a` to the step-`j` cell of the ray
from `a` to `b` never coincides with the step-`k` cell of that ray when
`j < k`: the main ray's major axis advances strictly monotonically, so the
step-`k` cell lies outside the bounding box of the sub-ray. -/
lemma subray_avoids_later (a b : Pos) (j k : ℕ) (hj : j < k) (hk : k ≤ ray_steps a b)
    (i : ℕ)
    (hi : i ≤ ray_steps a ⟨(rayCellX a b j).toNat, (rayCellY a b j).toNat⟩) :
    ¬((rayCellX a ⟨(rayCellX a b j).toNat, (rayCellY a b j).toNat⟩ i).toNat =
        (rayCellX a b k).toNat ∧
      (rayCellY a ⟨(rayCellX a b j).toNat, (rayCellY a b j).toNat⟩ i).toNat =
        (rayCellY a b k).toNat) := by
  set p : Pos := ⟨(rayCellX a b j).toNat, (rayCellY a b j).toNat⟩ with hp
  have hs0 : ray_steps a b ≠ 0 := by omega
  have hj_le : j ≤ ray_steps a b := by omega
  rintro ⟨hx, hy⟩
  have hnb_j_x : (0 : Int) ≤ rayCellX a b j := rayCellX_nonneg a b j hj_le
  have hnb_j_y : (0 : Int) ≤ rayCellY a b j := rayCellY_nonneg a b j hj_le
  have hnb_k_x : (0 : Int) ≤ rayCellX a b k := rayCellX_nonneg a b k hk
  have hnb_k_y : (0 : Int) ≤ rayCellY a b k := rayCellY_nonneg a b k hk
  have hnb_i_x : (0 : Int) ≤ rayCellX a p i := rayCellX_nonneg a p i hi
  have hnb_i_y : (0 : Int) ≤ rayCellY a p i := rayCellY_nonneg a p i hi
  have hboxx := rayCellX_between a p i hi
  have hboxy := rayCellY_between a p i hi
  have hpx : ((p.x : ℕ) : Int) = rayCellX a b j := by
    show (((rayCellX a b j).toNat : ℕ) : Int) = rayCellX a b j
    exact Int.toNat_of_nonneg hnb_j_x
  have hpy : ((p.y : ℕ) : Int) = rayCellY a b j := by
    show (((rayCellY a b j).toNat : ℕ) : Int) = rayCellY a b j
    exact Int.toNat_of_nonneg hnb_j_y
  have hxx : rayCellX a p i = rayCellX a b k := by omega
  have hyy : rayCellY a p i = rayCellY a b k := by omega
  rcases exists_major a b hs0 with ⟨e, he, _, hcell⟩ | ⟨e, he, _, hcell⟩
  · have h1 : rayCellX a b j = (a.x : Int) + j * e := hcell j
    have h2 : rayCellX a b k = (a.x : Int) + k * e := hcell k
    have hb1 : min ((a.x : ℕ) : Int) ((p.x : ℕ) : Int) ≤ rayCellX a p i := by
      have h := hboxx.1
      rwa [Nat.cast_min] at h
    have hb2 : rayCellX a p i ≤ max ((a.x : ℕ) : Int) ((p.x : ℕ) : Int) := by
      have h := hboxx.2
      rwa [Nat.cast_max] at h
    rcases he with he | he <;> subst he <;> omega
  · have h1 : rayCellY a b j = (a.y : Int) + j * e := hcell j
    have h2 : rayCellY a b k = (a.y : Int) + k * e := hcell k
    have hb1 : min ((a.y : ℕ) : Int) ((p.y : ℕ) : Int) ≤ rayCellY a p i := by
      have h := hboxy.1
      rwa [Nat.cast_min] at h
    have hb2 : rayCellY a p i ≤ max ((a.y : ℕ) : Int) ((p.y : ℕ) : Int) := by
      have h := hboxy.2
      rwa [Nat.cast_max] at h
    rcases he with he | he <;> subst he <;> omega

/-- Claim C4, amended: if the observer sees `b` and the step-`k` cell of
the ray (strictly between observer and target, `1 ≤ k < ray_steps`) is
made opaque, then `b` becomes invisible; and for every cell of the ray
path strictly before the new obstruction, its visibility is unchanged by
the replacement (it is not necessarily visible: the sub-ray to it may be
blocked by a tile the main ray never samples, or it may fall outside the
field-of-view arc). -/
theorem obstruction_blocking (m : Map) (actor : Actor) (spec : LightSpec) (b : Pos)
    (k : ℕ) (ch : Char)
    (hlen : m.tiles.length = m.width * m.height)
    (hax : actor.tile_pos.x < m.width) (hay : actor.tile_pos.y < m.height)
    (hbx : b.x < m.width) (hby : b.y < m.height)
    (hlight : actor.light = some spec)
    (hvis : is_visible m actor b)
    (hk1 : 1 ≤ k) (hk2 : k < ray_steps actor.tile_pos b)
    (hopen : (raySample m actor.tile_pos b k).obstructing = false) :
    ¬ is_visible (m.setTile (rayCellX actor.tile_pos b k).toNat
        (rayCellY actor.tile_pos b k).toNat (Tile.Wall ch)) actor b ∧
    ∀ j, j < k →
      (is_visible (m.setTile (rayCellX actor.tile_pos b k).toNat
          (rayCellY actor.tile_pos b k).toNat (Tile.Wall ch)) actor
          ⟨(rayCellX actor.tile_pos b j).toNat, (rayCellY actor.tile_pos b j).toNat⟩ ↔
        is_visible m actor
          ⟨(rayCellX actor.tile_pos b j).toNat, (rayCellY actor.tile_pos b j).toNat⟩) := by
  set a := actor.tile_pos with ha
  set cx := (rayCellX a b k).toNat with hcx
  set cy := (rayCellY a b k).toNat with hcy
  set m' := m.setTile cx cy (Tile.Wall ch) with hm'
  have hs0 : ray_steps a b ≠ 0 := by omega
  have hne_ab : a ≠ b := fun h => hs0 ((ray_steps_eq_zero_iff a b).2 h)
  have hbk := raySample_bounds m.width m.height a b hax hay hbx hby k hk2.le
  have hblocked : cast_ray a b m' = false := by
    rw [← Bool.not_eq_true, cast_ray_iff]
    intro hall
    have h := hall k hk2
    unfold raySample at h
    rw [← hcx, ← hcy] at h
    rw [tileAt_setTile_self m cx cy _ (by rw [hlen]; exact linear_index_lt _ _ _ _ hbk.1 hbk.2)] at h
    exact absurd h (by simp [Tile.obstructing])
  constructor
  · exact not_visible_of_blocked m' actor b hne_ab hblocked
  · intro j hj
    set p : Pos := ⟨(rayCellX a b j).toNat, (rayCellY a b j).toNat⟩ with hpdef
    by_cases hap : a = p
    · exact iff_of_true (is_visible_self _ _ _ hap) (is_visible_self _ _ _ hap)
    · have hpx : p.x < m.width :=
        (raySample_bounds m.width m.height a b hax hay hbx hby j (by omega)).1
      have hpy : p.y < m.height :=
        (raySample_bounds m.width m.height a b hax hay hbx hby j (by omega)).2
      have hsub : cast_ray a p m' = cast_ray a p m := by
        apply cast_ray_congr
        intro i hi
        unfold raySample
        rw [hm']
        apply tileAt_setTile_ne
        · exact hbk.1
        · exact (raySample_bounds m.width m.height a p hax hay hpx hpy i hi.le).1
        · exact subray_avoids_later a b j k hj hk2.le i hi.le
      cases hli : actor.light with
      | none =>
        exact iff_of_false (not_visible_no_light _ _ _ hap hli)
          (not_visible_no_light _ _ _ hap hli)
      | some l =>
        rw [visible_iff m' actor p l hli hap, visible_iff m actor p l hli hap]
        rw [← ha, hsub]

/-! ### Concrete evaluation of two rays, for the C4 instances -/

lemma roundAway_eq_of (q : ℚ) (n : Int) (h0 : 0 ≤ q)
    (h1 : (n : ℚ) ≤ q + 1 / 2) (h2 : q + 1 / 2 < (n : ℚ) + 1) : roundAway q = n := by
  rw [roundAway_of_nonneg q h0, round_eq]
  exact Int.floor_eq_iff.mpr ⟨h1, by push_cast; linarith⟩

lemma raySample_eval (m : Map) (a b : Pos) (k : ℕ) (cx cy : ℕ)
    (hx : rayCellX a b k = (cx : Int)) (hy : rayCellY a b k = (cy : Int)) :
    raySample m a b k = m.tileAt cx cy := by
  rw [raySample, hx, hy, Int.toNat_natCast, Int.toNat_natCast]

lemma ray52_steps : ray_steps ⟨0, 0⟩ ⟨5, 2⟩ = 5 := by decide

lemma ray52_incs : rayIncs ⟨0, 0⟩ ⟨5, 2⟩ = (1, 2 / 5) := by
  rw [rayIncs_eq, ray52_steps, Prod.mk.injEq]
  constructor <;> norm_num

lemma ray52_cellX (k : ℕ) (hk : k < 5) : rayCellX ⟨0, 0⟩ ⟨5, 2⟩ k = (k : Int) := by
  rw [rayCellX, rayPosX, ray52_incs]
  exact roundAway_eq_of _ _ (by positivity) (by push_cast; norm_num) (by push_cast; norm_num)

lemma ray52_cellY (k : ℕ) (n : Int) (h1 : (n : ℚ) ≤ k * (2 / 5) + 1 / 2)
    (h2 : (k : ℚ) * (2 / 5) + 1 / 2 < (n : ℚ) + 1) :
    rayCellY ⟨0, 0⟩ ⟨5, 2⟩ k = n := by
  rw [rayCellY, rayPosY, ray52_incs]
  refine roundAway_eq_of _ _ (by positivity) ?_ ?_
  · show (n : ℚ) ≤ ((0 : ℕ) : ℚ) + k * (2 / 5) + 1 / 2
    push_cast
    linarith
  · show ((0 : ℕ) : ℚ) + k * (2 / 5) + 1 / 2 < (n : ℚ) + 1
    push_cast
    linarith

lemma ray52_cellY0 : rayCellY ⟨0, 0⟩ ⟨5, 2⟩ 0 = 0 := ray52_cellY 0 0 (by norm_num) (by norm_num)
lemma ray52_cellY1 : rayCellY ⟨0, 0⟩ ⟨5, 2⟩ 1 = 0 := ray52_cellY 1 0 (by norm_num) (by norm_num)
lemma ray52_cellY2 : rayCellY ⟨0, 0⟩ ⟨5, 2⟩ 2 = 1 := ray52_cellY 2 1 (by norm_num) (by norm_num)
lemma ray52_cellY3 : rayCellY ⟨0, 0⟩ ⟨5, 2⟩ 3 = 1 := ray52_cellY 3 1 (by norm_num) (by norm_num)
lemma ray52_cellY4 : rayCellY ⟨0, 0⟩ ⟨5, 2⟩ 4 = 2 := ray52_cellY 4 2 (by norm_num) (by norm_num)

lemma ray21_steps : ray_steps ⟨0, 0⟩ ⟨2, 1⟩ = 2 := by decide

lemma ray21_incs : rayIncs ⟨0, 0⟩ ⟨2, 1⟩ = (1, 1 / 2) := by
  rw [rayIncs_eq, ray21_steps, Prod.mk.injEq]
  constructor <;> norm_num

lemma ray21_cellX1 : rayCellX ⟨0, 0⟩ ⟨2, 1⟩ 1 = 1 := by
  rw [rayCellX, rayPosX, ray21_incs]
  exact roundAway_eq_of _ _ (by positivity) (by push_cast; norm_num) (by push_cast; norm_num)

lemma ray21_cellY1 : rayCellY ⟨0, 0⟩ ⟨2, 1⟩ 1 = 1 := by
  rw [rayCellY, rayPosY, ray21_incs]
  exact roundAway_eq_of _ _ (by positivity) (by push_cast; norm_num) (by push_cast; norm_num)

/-- The ray from `(0,0)` to `(5,2)` is clear in the map whose only wall is
at `(1,1)`: its sampled cells are `(0,0), (1,0), (2,1), (3,1), (4,2)`. -/
lemma cast52_wall11 : cast_ray ⟨0, 0⟩ ⟨5, 2⟩ mWall11 = true := by
  rw [cast_ray_iff]
  intro k hk
  rw [ray52_steps] at hk
  interval_cases k
  · rw [raySample_eval mWall11 _ _ 0 0 0 (ray52_cellX 0 (by norm_num)) ray52_cellY0]; decide
  · rw [raySample_eval mWall11 _ _ 1 1 0 (ray52_cellX 1 (by norm_num)) ray52_cellY1]; decide
  · rw [raySample_eval mWall11 _ _ 2 2 1 (ray52_cellX 2 (by norm_num)) ray52_cellY2]; decide
  · rw [raySample_eval mWall11 _ _ 3 3 1 (ray52_cellX 3 (by norm_num)) ray52_cellY3]; decide
  · rw [raySample_eval mWall11 _ _ 4 4 2 (ray52_cellX 4 (by norm_num)) ray52_cellY4]; decide

/-- The ray from `(0,0)` to `(2,1)` samples `(1,1)`, so it is blocked in
any map that keeps the wall at `(1,1)`. -/
lemma cast21_blocked : cast_ray ⟨0, 0⟩ ⟨2, 1⟩ (mWall11.setTile 3 1 (Tile.Wall 'X')) = false := by
  rw [← Bool.not_eq_true, cast_ray_iff]
  intro hall
  have h := hall 1 (by rw [ray21_steps]; omega)
  rw [raySample_eval _ _ _ 1 1 1 ray21_cellX1 ray21_cellY1] at h
  exact absurd h (by decide)

/-- Counterexample to C4 as stated: in the 6 by 3 map with a wall at
`(1,1)`, the observer at `(0,0)` (radius 100, full field of view) sees
`(5,2)`; the cell `(3,1)` is the open step-3 cell of the ray, strictly
between observer and target; yet after making `(3,1)` opaque the step-2
cell `(2,1)` — strictly before the obstruction on the ray path — is NOT
visible: the sub-ray to `(2,1)` passes through the wall at `(1,1)`, which
the main ray never samples. -/
theorem obstruction_blocking_cex :
    is_visible mWall11 actorFull ⟨5, 2⟩ ∧
    (rayCellX ⟨0, 0⟩ ⟨5, 2⟩ 3).toNat = 3 ∧ (rayCellY ⟨0, 0⟩ ⟨5, 2⟩ 3).toNat = 1 ∧
    1 ≤ 3 ∧ 3 < ray_steps ⟨0, 0⟩ ⟨5, 2⟩ ∧
    (mWall11.tileAt 3 1).obstructing = false ∧
    (rayCellX ⟨0, 0⟩ ⟨5, 2⟩ 2).toNat = 2 ∧ (rayCellY ⟨0, 0⟩ ⟨5, 2⟩ 2).toNat = 1 ∧
    2 < 3 ∧
    ¬ is_visible (mWall11.setTile 3 1 (Tile.Wall 'X')) actorFull ⟨2, 1⟩ := by
  refine ⟨?_, ?_, ?_, by norm_num, ?_, by decide, ?_, ?_, by norm_num, ?_⟩
  · exact visible_concrete mWall11 ⟨0, 0⟩ ⟨5, 2⟩ (by decide) (by decide) (by decide)
      cast52_wall11
  · rw [ray52_cellX 3 (by norm_num)]; rfl
  · rw [ray52_cellY3]; rfl
  · rw [ray52_steps]; norm_num
  · rw [ray52_cellX 2 (by norm_num)]; rfl
  · rw [ray52_cellY2]; rfl
  · exact not_visible_of_blocked _ actorFull ⟨2, 1⟩ (by decide) cast21_blocked

/-- Witness for the amended C4 at the all-open 6 by 3 map. -/
theorem obstruction_blocking_witness :
    ¬ is_visible (mAir.setTile (rayCellX ⟨0, 0⟩ ⟨5, 2⟩ 3).toNat
        (rayCellY ⟨0, 0⟩ ⟨5, 2⟩ 3).toNat (Tile.Wall 'X')) actorFull ⟨5, 2⟩ ∧
      (is_visible (mAir.setTile (rayCellX ⟨0, 0⟩ ⟨5, 2⟩ 3).toNat
          (rayCellY ⟨0, 0⟩ ⟨5, 2⟩ 3).toNat (Tile.Wall 'X')) actorFull
          ⟨(rayCellX ⟨0, 0⟩ ⟨5, 2⟩ 2).toNat, (rayCellY ⟨0, 0⟩ ⟨5, 2⟩ 2).toNat⟩ ↔
        is_visible mAir actorFull
          ⟨(rayCellX ⟨0, 0⟩ ⟨5, 2⟩ 2).toNat, (rayCellY ⟨0, 0⟩ ⟨5, 2⟩ 2).toNat⟩) := by
  have hvis : is_visible mAir actorFull ⟨5, 2⟩ :=
    visible_concrete mAir ⟨0, 0⟩ ⟨5, 2⟩ (by decide) (by decide) (by decide)
      (cast_ray_no_walls mAir (by decide) ⟨0, 0⟩ ⟨5, 2⟩)
  have hopen : (raySample mAir actorFull.tile_pos ⟨5, 2⟩ 3).obstructing = false := by
    show (raySample mAir ⟨0, 0⟩ ⟨5, 2⟩ 3).obstructing = false
    rw [raySample_eval mAir _ _ 3 3 1 (ray52_cellX 3 (by norm_num)) ray52_cellY3]
    decide
  have H := obstruction_blocking mAir actorFull ⟨100, 2 * Real.pi⟩ ⟨5, 2⟩ 3 'X'
    (by decide) (by decide) (by decide) (by decide) (by decide) rfl hvis
    (by norm_num) (by show 3 < ray_steps ⟨0, 0⟩ ⟨5, 2⟩; rw [ray52_steps]; norm_num) hopen
  exact ⟨H.1, H.2 2 (by norm_num)⟩

/-! ### Claim C3 -/

lemma writeRow_length (w li : ℕ) :
    ∀ (line : List Char) (i : ℕ) (tiles tiles' : List Tile),
      writeRow w li line i tiles = .ok tiles' → tiles'.length = tiles.length := by
  intro line
  induction line with
  | nil =>
    intro i tiles tiles' h
    simp only [writeRow] at h
    cases h
    rfl
  | cons c cs ih =>
    intro i tiles tiles' h
    simp only [writeRow] at h
    split_ifs at h with hc hb
    · exact ih (i + 1) tiles tiles' h
    · have := ih (i + 1) _ tiles' h
      rw [this, List.length_set]

lemma writeRow_isOk_iff (w li : ℕ) :
    ∀ (line : List Char) (i : ℕ) (tiles : List Tile),
      (∃ t', writeRow w li line i tiles = .ok t') ↔
        ∀ j, j < line.length → line.getD j ' ' ≠ ' ' →
          i + j + li * w < tiles.length := by
  intro line
  induction line with
  | nil =>
    intro i tiles
    simp [writeRow]
  | cons c cs ih =>
    intro i tiles
    constructor
    · rintro ⟨t', ht⟩ j hj hc
      simp only [writeRow] at ht
      split_ifs at ht with hsp hb
      · cases j with
        | zero => exact absurd hsp (by simpa using hc)
        | succ j' =>
          have := (ih (i + 1) tiles).1 ⟨t', ht⟩ j' (by simpa using hj) (by simpa using hc)
          omega
      · cases j with
        | zero => omega
        | succ j' =>
          have hlen := List.length_set tiles (i + li * w) (Tile.Wall c)
          have := (ih (i + 1) _).1 ⟨t', ht⟩ j' (by simpa using hj) (by simpa using hc)
          rw [hlen] at this
          omega
    · intro hall
      simp only [writeRow]
      split_ifs with hsp hb
      · refine (ih (i + 1) tiles).2 ?_
        intro j hj hc
        have := hall (j + 1) (by simpa using hj) (by simpa using hc)
        omega
      · refine (ih (i + 1) _).2 ?_
        intro j hj hc
        have := hall (j + 1) (by simpa using hj) (by simpa using hc)
        rw [List.length_set]
        omega
      · exfalso
        exact hb (hall 0 (by simp) (by simpa using hsp))

lemma writeRows_isOk_iff (w : ℕ) :
    ∀ (ls : List (List Char)) (li : ℕ) (tiles : List Tile),
      (∃ t', writeRows w li ls tiles = .ok t') ↔
        ∀ r, r < ls.length → ∀ j, j < (ls.getD r []).length →
          (ls.getD r []).getD j ' ' ≠ ' ' → j + (li + r) * w < tiles.length := by
  intro ls
  induction ls with
  | nil =>
    intro li tiles
    simp [writeRows]
  | cons l ls' ih =>
    intro li tiles
    constructor
    · rintro ⟨t', ht⟩ r hr j hj hc
      simp only [writeRows] at ht
      rcases hrow : writeRow w li l 0 tiles with e | t0
      · rw [hrow] at ht
        cases ht
      · rw [hrow] at ht
        have hlen0 : t0.length = tiles.length := writeRow_length w li l 0 tiles t0 hrow
        cases r with
        | zero =>
          have := (writeRow_isOk_iff w li l 0 tiles).1 ⟨t0, hrow⟩ j (by simpa using hj)
            (by simpa using hc)
          have hz : li + 0 = li := rfl
          rw [hz]
          omega
        | succ r' =>
          have := (ih (li + 1) t0).1 ⟨t', ht⟩ r' (by simpa using hr) j
            (by simpa using hj) (by simpa using hc)
          rw [hlen0] at this
          have harith : li + 1 + r' = li + (r' + 1) := by omega
          rw [harith] at this
          exact this
    · intro hall
      simp only [writeRows]
      have hrow0 : ∃ t0, writeRow w li l 0 tiles = .ok t0 := by
        refine (writeRow_isOk_iff w li l 0 tiles).2 ?_
        intro j hj hc
        have := hall 0 (by simp) j (by simpa using hj) (by simpa using hc)
        have hz : li + 0 = li := rfl
        rw [hz] at this
        omega
      obtain ⟨t0, hrow⟩ := hrow0
      rw [hrow]
      have hlen0 : t0.length = tiles.length := writeRow_length w li l 0 tiles t0 hrow
      refine (ih (li + 1) t0).2 ?_
      intro r hr j hj hc
      have := hall (r + 1) (by simpa using hr) j (by simpa using hj) (by simpa using hc)
      rw [hlen0]
      have harith : li + 1 + r = li + (r + 1) := by omega
      rw [harith]
      exact this

/-- Claim C3, amended: map construction does NOT reject inconsistent row
widths in general.  It produces a grid exactly when the input is nonempty
and every non-blank character's flattened index `i + li * width` (with
`width` the first row's length) is below `width * numberOfRows`.  In
particular rows shorter than the first — and longer rows whose overflow
columns are blank or spill into in-range indices — load without any
error; only a non-blank character whose flattened index falls outside the
tile vector aborts construction (an index panic, not a checked load
error). -/
theorem from_lines_ok_iff (lines : List (List Char)) :
    (∃ m, from_lines lines = .ok m) ↔
      (lines ≠ [] ∧ ∀ r, r < lines.length → ∀ j, j < (lines.getD r []).length →
        (lines.getD r []).getD j ' ' ≠ ' ' →
          j + r * (lines.headD []).length < (lines.headD []).length * lines.length) := by
  cases lines with
  | nil => simp [from_lines]
  | cons first rest =>
    have hinit : (List.replicate (first.length * (first :: rest).length) Tile.Air).length =
        first.length * (first :: rest).length := List.length_replicate _ _
    have hchain : (∃ m, from_lines (first :: rest) = .ok m) ↔
        (∃ t', writeRows first.length 0 (first :: rest)
          (List.replicate (first.length * (first :: rest).length) Tile.Air) = .ok t') := by
      constructor
      · rintro ⟨m, hm⟩
        simp only [from_lines] at hm
        rcases hw : writeRows first.length 0 (first :: rest)
            (List.replicate (first.length * (first :: rest).length) Tile.Air) with e | t'
        · rw [hw] at hm
          cases hm
        · exact ⟨t', rfl⟩
      · rintro ⟨t', ht⟩
        refine ⟨⟨first.length, t'⟩, ?_⟩
        simp only [from_lines]
        rw [ht]
    rw [hchain, writeRows_isOk_iff first.length (first :: rest) 0 _]
    constructor
    · intro h
      refine ⟨by simp, ?_⟩
      intro r hr j hj hc
      have := h r hr j hj hc
      rw [hinit] at this
      simpa using this
    · rintro ⟨_, h⟩
      intro r hr j hj hc
      have := h r hr j hj hc
      rw [hinit]
      simpa using this

/-- Counterexample to C3 as stated: the two rows `"ab"` and `"a"` have
different lengths, yet map construction succeeds and yields a grid (the
missing trailing cell of the short row stays open).  No load error is
reported for inconsistent row widths. -/
theorem from_lines_row_mismatch_cex :
    (['a'] : List Char).length ≠ (['a', 'b'] : List Char).length ∧
      from_lines [['a', 'b'], ['a']] =
        .ok ⟨2, [Tile.Wall 'a', Tile.Wall 'b', Tile.Wall 'a', Tile.Air]⟩ := by
  constructor
  · decide
  · rfl

end RogueView
